import Mathlib

/-!
Verification development for the `warefs-duden` API server (`src/api/src/index.js`).

The development shallowly embeds the pure decision logic of the server's
request handlers:

* the morphology normalizer (`normalizePartOfSpeech`, `normalizeArticle`,
  `validateMorphology`, `capitalizeFirst`),
* the AI field-completion merge (`POST /api/entries/ai-complete`),
* the spellcheck/review result construction (`POST /api/entries/spellcheck`),
* the situational-alternatives engine (`normalizeAlternativesResponse`,
  the write-time dedup of `POST /api/entries/ai-alternatives`, and
  `aggregateAlternatives`),
* the persistence-time validation of `POST /api/entries`.

JavaScript values are modelled explicitly: a field that may be absent or
`null` is an `Option`; `a ?? b` is `nullishOr`; JS string falsiness is the
test against `""`.  String methods are modelled on the character-list
representation so that all definitions evaluate by kernel reduction:
`jsToLower` models `String.prototype.toLowerCase` (exact on ASCII, identity
elsewhere), `jsTrim` models `trim` (ASCII whitespace), `capitalizeFirst`
models the server's helper of the same name.  Asynchronous storage is
modelled by explicit state passing: the `Alternative` collection is a
`List AltDoc` in insertion order (Mongo's stable sort by the monotone
`timestamp` returns it unchanged).
-/

/-- Models `String.prototype.toLowerCase` on a single character: exact for
ASCII letters, identity elsewhere (the server only compares against ASCII
keyword lists, so non-ASCII case folding is never observable there). -/
def jsToLowerChar (c : Char) : Char :=
  if 'A' ≤ c ∧ c ≤ 'Z' then Char.ofNat (c.toNat + 32) else c

/-- Models `String.prototype.toUpperCase` on a single character (ASCII). -/
def jsToUpperChar (c : Char) : Char :=
  if 'a' ≤ c ∧ c ≤ 'z' then Char.ofNat (c.toNat - 32) else c

/-- Models `value.toLowerCase()`. -/
def jsToLower (s : String) : String :=
  ⟨s.data.map jsToLowerChar⟩

/-- ASCII whitespace, the fragment of the JS `trim` character class the
server's inputs exercise. -/
def jsIsWhitespace (c : Char) : Bool :=
  c = ' ' ∨ c = '\t' ∨ c = '\n' ∨ c = '\r'

/-- Models `value.trim()`. -/
def jsTrim (s : String) : String :=
  ⟨((s.data.dropWhile jsIsWhitespace).reverse.dropWhile jsIsWhitespace).reverse⟩

/-- Models JavaScript's nullish coalescing `a ?? b`: `none` stands for
`undefined`/`null`; note that `some ""` (an empty string) is *not* nullish
and wins over `b`. -/
def nullishOr {α : Type} (a b : Option α) : Option α :=
  match a with
  | some v => some v
  | none => b

/-- JS truthiness of an optional string (`!value`): `undefined`, `null` and
`""` are falsy. -/
def strTruthy : Option String → Bool
  | none => false
  | some s => s ≠ ""

/-- `Array.from(new Set(l))` keeps the first occurrence of each element;
`dedupAux l seen` drops elements already emitted or in `seen`. -/
def dedupAux : List String → List String → List String
  | [], _ => []
  | a :: l, seen =>
    if a ∈ seen then dedupAux l seen else a :: dedupAux l (a :: seen)

/-- First-occurrence deduplication, as performed by
`Array.from(new Set(...))` in the source. -/
def dedupKeepFirst (l : List String) : List String :=
  dedupAux l []

/-- The fixed part-of-speech enumeration `allowedPos` of the source. -/
def allowedPos : List String :=
  ["noun", "verb", "adjective", "adverb", "interjection", "particle",
   "conjunction", "preposition", "phrase"]

/-- A JS value supplied for the `partOfSpeech` position: either a single
string or an array of strings (the only shapes the server's callers and the
oracle contract produce; `String(item)` is the identity on strings). -/
inductive PosValue
  | str (s : String)
  | arr (items : List String)
deriving DecidableEq

/-- JS truthiness of the `partOfSpeech` argument (`!value`): absent, `null`
and `""` are falsy; every array (even empty) is truthy. -/
def posTruthy : Option PosValue → Bool
  | none => false
  | some (.str s) => s ≠ ""
  | some (.arr _) => true

/-- `Array.isArray(value) ? value : [value]`. -/
def posItems : Option PosValue → List String
  | none => []
  | some (.str s) => [s]
  | some (.arr l) => l

/-- `normalizePartOfSpeech` (src/api/src/index.js:594-602): wrap a single
value into a list, lowercase and trim each item, keep only tags of
`allowedPos`, collapse duplicates keeping first occurrences, and truncate to
the first remaining element. -/
def normalizePartOfSpeech (value : Option PosValue) : List String :=
  if posTruthy value = false then []
  else
    let list := posItems value
    let normalized := (list.map (fun i => jsTrim (jsToLower i))).filter
      (fun i => i ∈ allowedPos)
    (dedupKeepFirst normalized).take 1

/-- `capitalizeFirst` (src/api/src/index.js:604-608): uppercase the first
character, keep the rest.  Non-string and empty inputs are returned
unchanged; the string case is total here, so only emptiness is guarded. -/
def capitalizeFirst (s : String) : String :=
  match s.data with
  | [] => s
  | c :: rest => ⟨jsToUpperChar c :: rest⟩

/-- `normalizeArticle` (src/api/src/index.js:610-615): falsy input yields
`undefined`; otherwise lowercase+trim and accept only `der`/`die`/`das`. -/
def normalizeArticle (value : Option String) : Option String :=
  match value with
  | none => none
  | some v =>
    if v = "" then none
    else
      let normalized := jsTrim (jsToLower v)
      if normalized ∈ ["der", "die", "das"] then some normalized else none

/-- Result of `validateMorphology`: either the normalized pair or an error
object `{ error }`. -/
inductive MorphResult
  | ok (partOfSpeech : List String) (article : Option String)
  | error (message : String)
deriving DecidableEq

/-- `validateMorphology` (src/api/src/index.js:617-629). -/
def validateMorphology (partOfSpeech : Option PosValue)
    (article : Option String) : MorphResult :=
  let normalizedPos := normalizePartOfSpeech partOfSpeech
  let normalizedArticle := normalizeArticle article
  if "noun" ∈ normalizedPos then
    match normalizedArticle with
    | none => .error "Artikel ist für Nomen erforderlich."
    | some a => .ok normalizedPos (some a)
  else
    .ok normalizedPos none

/-- The morphology-bearing fields of an `ai-complete` request body or of the
parsed oracle JSON (src/api/src/index.js:163,201): each field is `none`
when absent or `null`. -/
structure CompleteFields where
  term : Option String
  definition : Option String
  exampleField : Option String
  synonyms : Option String
  partOfSpeech : Option PosValue
  article : Option String
deriving DecidableEq

/-- The JSON object returned on success by `POST /api/entries/ai-complete`
(src/api/src/index.js:202-209).  `exampleField` embeds the JS key
`example`, which is a Lean keyword. -/
structure CompleteResponse where
  term : String
  definition : String
  exampleField : String
  synonyms : String
  partOfSpeech : List String
  article : String
deriving DecidableEq

/-- The merge performed by `POST /api/entries/ai-complete`
(src/api/src/index.js:202-209): each content field is
`parsed.x ?? input.x ?? ""`, the part of speech is
`normalizePartOfSpeech(parsed.partOfSpeech ?? input.partOfSpeech)` and the
article is `parsed.article ?? input.article ?? ""`. -/
def aiCompleteResult (input parsed : CompleteFields) : CompleteResponse where
  term := (nullishOr parsed.term input.term).getD ""
  definition := (nullishOr parsed.definition input.definition).getD ""
  exampleField := (nullishOr parsed.exampleField input.exampleField).getD ""
  synonyms := (nullishOr parsed.synonyms input.synonyms).getD ""
  partOfSpeech :=
    normalizePartOfSpeech (nullishOr parsed.partOfSpeech input.partOfSpeech)
  article := (nullishOr parsed.article input.article).getD ""

/-- A persisted `Entry`'s fields as written by `POST /api/entries`
(src/api/src/index.js:646-653). -/
structure EntryFields where
  term : String
  definition : String
  exampleField : Option String
  synonyms : Option String
  partOfSpeech : List String
  article : Option String
deriving DecidableEq

/-- Outcome of the `POST /api/entries` handler's synchronous decision
logic: a 400 response or the document handed to `Entry.create`. -/
inductive CreateOutcome
  | badRequest (message : String)
  | created (entry : EntryFields)
deriving DecidableEq

/-- `POST /api/entries` (src/api/src/index.js:631-664), up to the storage
call: reject missing/empty term or definition, run `validateMorphology`,
reject on its error, else create the entry with the normalized morphology. -/
def postEntries (term definition exampleField synonyms : Option String)
    (partOfSpeech : Option PosValue) (article : Option String) :
    CreateOutcome :=
  if strTruthy term = false ∨ strTruthy definition = false then
    .badRequest "term and definition are required"
  else
    match validateMorphology partOfSpeech article with
    | .error m => .badRequest m
    | .ok np na =>
      .created ⟨term.getD "", definition.getD "", exampleField, synonyms,
        np, na⟩

/-! ### Spellcheck / review (`POST /api/entries/spellcheck`) -/

/-- One `{ from, to, reason }` suggestion record. -/
structure Suggestion where
  fromText : String
  toText : String
  reason : String
deriving DecidableEq

/-- The per-field object of the review response
(src/api/src/index.js:537-550 and 570). -/
structure ReviewFieldResult where
  corrected : Option String
  suggestions : List Suggestion
  lemmaVal : Option String
  partOfSpeech : List String
  article : Option String
deriving DecidableEq

/-- The neutral result used when the oracle omitted a reviewed field or
returned a non-object for it (src/api/src/index.js:570). -/
def neutralReviewResult : ReviewFieldResult :=
  ⟨none, [], none, [], none⟩

/-- The oracle's per-field JSON object as the handler inspects it.  A field
of the wrong runtime type behaves exactly like an absent field in the
handler, so each component is an `Option` of the type the handler tests
for.  `lemmaVal` embeds the JS key `lemma`, a Lean keyword; `posAlt` embeds
the fallback key `pos`. -/
structure OracleFieldVal where
  corrected : Option String
  suggestions : Option (List Suggestion)
  lemmaVal : Option String
  partOfSpeech : Option PosValue
  posAlt : Option PosValue
  article : Option String
deriving DecidableEq

/-- `value.partOfSpeech || value.pos`: JS `||` falls back on falsy values;
an empty string is falsy, every array is truthy. -/
def jsOrPos (a b : Option PosValue) : Option PosValue :=
  if posTruthy a then a else b

/-- `typeof value.corrected === "string" && value.corrected.trim() ?
value.corrected : null` (src/api/src/index.js:538-541). -/
def oracleCorrected (v : OracleFieldVal) : Option String :=
  match v.corrected with
  | some s => if jsTrim s ≠ "" then some s else none
  | none => none

/-- The `ReviewFieldResult` assigned before the term/noun special case
(src/api/src/index.js:537-550). -/
def reviewBase (v : OracleFieldVal) : ReviewFieldResult where
  corrected := oracleCorrected v
  suggestions := v.suggestions.getD []
  lemmaVal :=
    match v.lemmaVal with
    | some s => if jsTrim s ≠ "" then some (jsTrim s) else none
    | none => none
  partOfSpeech := normalizePartOfSpeech (jsOrPos v.partOfSpeech v.posAlt)
  article :=
    match v.article with
    | some a => if jsTrim a ≠ "" then some (jsToLower (jsTrim a)) else none
    | none => none

/-- The body of the `fieldsToReview.forEach` callback of
`POST /api/entries/spellcheck` (src/api/src/index.js:532-572): build the
field's `ReviewFieldResult` from the oracle's object, then, for the `term`
field with a noun part of speech, capitalize the base value and append the
synthetic capitalization suggestion when the capitalization changed it.
`value = none` models `parsed[field]` being absent, `null` or not an
object. -/
def processField (field : String) (original : Option String)
    (value : Option OracleFieldVal) : ReviewFieldResult :=
  match value with
  | none => neutralReviewResult
  | some v =>
    let base0 := reviewBase v
    if field = "term" ∧ "noun" ∈ base0.partOfSpeech then
      let originalTerm := original.getD ""
      let base := base0.corrected.getD originalTerm
      let capitalized := capitalizeFirst base
      if capitalized ≠ "" ∧ capitalized ≠ base then
        { base0 with
          corrected := some capitalized
          suggestions := base0.suggestions ++
            [⟨if originalTerm ≠ "" then originalTerm else base, capitalized,
              "Großschreibung (Nomen)"⟩] }
      else base0
    else base0

/-- The four reviewable field names (`allowedFields`). -/
def allowedFields : List String :=
  ["term", "definition", "example", "synonyms"]

/-- Field selection of `POST /api/entries/spellcheck`
(src/api/src/index.js:470-483): requested fields are the caller's
`userFields` filtered to `allowedFields` (or all of them when absent), and a
field is reviewed when its body value is truthy and, if a `userInput` map
was sent, marked truthy there. -/
def computeFieldsToReview (userFields : Option (List String))
    (body : String → Option String) (userInput : Option (String → Bool)) :
    List String :=
  let requestedFields :=
    match userFields with
    | some l => l.filter (fun f => f ∈ allowedFields)
    | none => allowedFields
  requestedFields.filter (fun f =>
    strTruthy (body f) &&
      match userInput with
      | some m => m f
      | none => true)

/-- The response map of `POST /api/entries/spellcheck`
(src/api/src/index.js:531-572): one entry per reviewed field, built by
`processField`. -/
def spellcheckResults (fieldsToReview : List String)
    (body : String → Option String)
    (parsed : String → Option OracleFieldVal) :
    List (String × ReviewFieldResult) :=
  fieldsToReview.map (fun field => (field, processField field (body field) (parsed field)))

/-! ### Situational alternatives -/

/-- `AI_SITUATION_KEYS` (src/api/src/index.js:86-92). -/
def AI_SITUATION_KEYS : List String :=
  ["arbeit", "schwiegereltern", "philosophie_3uhr", "gasse_betrunken",
   "behoerdlich"]

/-- A JSON value found under a situation key of the oracle's `results`
object: a string, an array (whose elements are strings or something else),
or any other JSON value. -/
inductive AltVal
  | str (s : String)
  | arr (items : List AltVal)
  | other

/-- `toList` (src/api/src/index.js:302-306): arrays pass through, a string
with non-blank trim becomes a singleton, everything else is empty. -/
def altToList : Option AltVal → List AltVal
  | some (.arr l) => l
  | some (.str s) => if jsTrim s ≠ "" then [.str s] else []
  | _ => []

/-- The per-key cleanup of `normalizeAlternativesResponse`
(src/api/src/index.js:310-313): trim string elements (non-strings become
`""`), drop empties, cap at 3. -/
def cleanKey (value : Option AltVal) : List String :=
  ((((altToList value).map fun v =>
      match v with
      | .str s => jsTrim s
      | _ => "").filter (fun s => s ≠ "")).take 3)

/-- The `AI_SITUATION_KEYS.forEach` loop of `normalizeAlternativesResponse`
(src/api/src/index.js:308-318) as a fold: process the keys in order,
failing (the JS `throw`) at the first key whose cleaned list is empty,
otherwise assigning the cleaned list into the accumulator. -/
def normAltGo (results : String → Option AltVal) :
    List String → (String → List String) →
    Except String (String → List String)
  | [], acc => .ok acc
  | k :: rest, acc =>
    let cleaned := cleanKey (results k)
    if cleaned = [] then .error ("Keine Alternativen für " ++ k)
    else normAltGo results rest (fun s => if s = k then cleaned else acc s)

/-- The oracle's parsed top-level payload: either not an object (→ throw),
or an object whose `results` key may be absent/non-object (→ `{}`). -/
inductive AltPayload
  | notObject
  | obj (results : Option (String → Option AltVal))

/-- `normalizeAlternativesResponse` (src/api/src/index.js:296-321).  The
thrown `Error`s become `Except.error`; the handler maps any such error to a
502 `UpstreamError` response with no per-situation payload. -/
def normalizeAlternativesResponse (payload : AltPayload)
    (itemText : String) :
    Except String (String × (String → List String)) :=
  match payload with
  | .notObject => .error "Ungültige KI-Antwort"
  | .obj results? =>
    let results := results?.getD (fun _ => none)
    (normAltGo results AI_SITUATION_KEYS (fun _ => [])).map
      (fun m => (itemText, m))

/-- One document of the `Alternative` collection
(src/api/src/index.js:98-108); `timestamp` is an abstract instant. -/
structure AltDoc where
  item : String
  situation : String
  alternative_text : String
  timestamp : Nat
  model_version : String
deriving DecidableEq

/-- The per-situation set of already-stored lowercased texts
(`existingBySituation`, src/api/src/index.js:372-378): lowercase every
stored text of the situation and keep the non-empty ones.  The JS `Set` is
modelled as a list queried by membership only. -/
def existingSet (docs : List AltDoc) (situation : String) : List String :=
  ((docs.filter (fun d => d.situation == situation)).map
    (fun d => jsToLower d.alternative_text)).filter (fun v => v ≠ "")

/-- The batch of candidate documents built from the normalized oracle
response (src/api/src/index.js:379-387). -/
def buildDocs (item : String) (results : String → List String)
    (timestamp : Nat) (modelVersion : String) : List AltDoc :=
  AI_SITUATION_KEYS.flatMap (fun key =>
    (results key).map (fun text => ⟨item, key, text, timestamp, modelVersion⟩))

/-- The `docs.filter` of src/api/src/index.js:389-397 with its mutable
per-situation sets made explicit: drop a candidate whose lowercased text is
empty or already seen for its situation, otherwise keep it and record its
lowercased text. -/
def toInsertAux : List AltDoc → (String → List String) → List AltDoc
  | [], _ => []
  | d :: rest, seen =>
    let v := jsToLower d.alternative_text
    if v = "" then toInsertAux rest seen
    else if v ∈ seen d.situation then toInsertAux rest seen
    else d :: toInsertAux rest
      (fun s => if s = d.situation then v :: seen s else seen s)

/-- The documents `POST /api/entries/ai-alternatives` inserts for a given
store and normalized oracle results (src/api/src/index.js:371-397). -/
def altToInsert (store : List AltDoc) (item : String)
    (results : String → List String) (timestamp : Nat)
    (modelVersion : String) : List AltDoc :=
  toInsertAux (buildDocs item results timestamp modelVersion)
    (existingSet (store.filter (fun d => d.item == item)))

/-- The `Alternative` collection after the handler's `insertMany`
(src/api/src/index.js:399-401): the novel documents are appended. -/
def generateStore (store : List AltDoc) (item : String)
    (results : String → List String) (timestamp : Nat)
    (modelVersion : String) : List AltDoc :=
  store ++ altToInsert store item results timestamp modelVersion

/-- The `{ item, results }` aggregate view. -/
structure AggregateResult where
  item : String
  results : String → List String

/-- The `docs.forEach` of `aggregateAlternatives`
(src/api/src/index.js:330-335): skip situations outside the five keys
(`!results[doc.situation]`), push a text only when not already present
under *exact* string comparison. -/
def aggregateAux : List AltDoc → (String → List String) →
    (String → List String)
  | [], acc => acc
  | d :: rest, acc =>
    if d.situation ∈ AI_SITUATION_KEYS then
      if d.alternative_text ∈ acc d.situation then aggregateAux rest acc
      else aggregateAux rest
        (fun s => if s = d.situation then acc s ++ [d.alternative_text]
                  else acc s)
    else aggregateAux rest acc

/-- `aggregateAlternatives` (src/api/src/index.js:323-337).  `store` is the
collection in insertion order; `Alternative.find({item}).sort({timestamp:1})`
returns its item-filtered sublist unchanged because insertion timestamps are
monotone and Mongo's sort is stable. -/
def aggregateAlternatives (store : List AltDoc) (item : String) :
    AggregateResult :=
  let normalizedItem := jsTrim item
  if normalizedItem = "" then ⟨item, fun _ => []⟩
  else
    ⟨normalizedItem,
     aggregateAux (store.filter (fun d => d.item == normalizedItem))
       (fun _ => [])⟩

/-- The response of `POST /api/entries/ai-alternatives`
(src/api/src/index.js:399-403): after inserting the novel batch, the
handler answers with `aggregateAlternatives` over the updated store. -/
def generateResponse (store : List AltDoc) (item : String)
    (results : String → List String) (timestamp : Nat)
    (modelVersion : String) : AggregateResult :=
  aggregateAlternatives (generateStore store item results timestamp modelVersion)
    item

/-- Case-insensitive uniqueness of the stored texts within every situation
of a document list (the invariant of spec §3 for one item's records). -/
def CIUnique (docs : List AltDoc) : Prop :=
  docs.Pairwise (fun a b => a.situation = b.situation →
    jsToLower a.alternative_text ≠ jsToLower b.alternative_text)

/-! ## Helper lemmas -/

lemma mem_dedupAux {x : String} :
    ∀ {l seen : List String}, x ∈ dedupAux l seen ↔ x ∈ l ∧ x ∉ seen := by
  intro l
  induction l with
  | nil => intro seen; simp [dedupAux]
  | cons a l ih =>
    intro seen
    by_cases h : a ∈ seen
    · simp only [dedupAux, if_pos h, ih, List.mem_cons]
      constructor
      · rintro ⟨hx, hns⟩; exact ⟨Or.inr hx, hns⟩
      · rintro ⟨hx | hx, hns⟩
        · exact absurd (hx ▸ h) hns
        · exact ⟨hx, hns⟩
    · rw [dedupAux, if_neg h]
      constructor
      · intro hx
        rcases List.mem_cons.mp hx with rfl | hx2
        · exact ⟨List.mem_cons_self _ _, h⟩
        · obtain ⟨hl, hns⟩ := ih.mp hx2
          exact ⟨List.mem_cons_of_mem _ hl,
            fun hc => hns (List.mem_cons_of_mem _ hc)⟩
      · rintro ⟨hx, hns⟩
        rcases List.mem_cons.mp hx with rfl | hl
        · exact List.mem_cons_self _ _
        · by_cases hxa : x = a
          · subst hxa; exact List.mem_cons_self _ _
          · refine List.mem_cons_of_mem _ (ih.mpr ⟨hl, fun hc => ?_⟩)
            exact (List.mem_cons.mp hc).elim hxa hns

lemma nodup_dedupAux : ∀ {l seen : List String}, (dedupAux l seen).Nodup := by
  intro l
  induction l with
  | nil => intro seen; simp [dedupAux]
  | cons a l ih =>
    intro seen
    by_cases h : a ∈ seen
    · simpa [dedupAux, if_pos h] using ih
    · simp only [dedupAux, if_neg h]
      refine List.Nodup.cons (fun hc => ?_) ih
      exact (mem_dedupAux.mp hc).2 (List.mem_cons_self a seen)

lemma mem_dedupKeepFirst {x : String} {l : List String} :
    x ∈ dedupKeepFirst l ↔ x ∈ l := by
  simp [dedupKeepFirst, mem_dedupAux]

lemma nodup_dedupKeepFirst {l : List String} : (dedupKeepFirst l).Nodup :=
  nodup_dedupAux

lemma dedupAux_congr :
    ∀ (l seen₁ seen₂ : List String), (∀ x, x ∈ seen₁ ↔ x ∈ seen₂) →
      dedupAux l seen₁ = dedupAux l seen₂ := by
  intro l
  induction l with
  | nil => intro _ _ _; rfl
  | cons a l ih =>
    intro s₁ s₂ hset
    by_cases h : a ∈ s₁
    · rw [dedupAux, dedupAux, if_pos h, if_pos ((hset a).mp h)]
      exact ih s₁ s₂ hset
    · rw [dedupAux, dedupAux, if_neg h, if_neg (fun hc => h ((hset a).mpr hc))]
      refine congrArg (a :: ·) (ih _ _ fun x => ?_)
      simp only [List.mem_cons]
      exact or_congr Iff.rfl (hset x)

lemma capitalizeFirst_eq_empty {s : String} (h : capitalizeFirst s = "") :
    s = "" := by
  unfold capitalizeFirst at h
  cases hd : s.data with
  | nil =>
    rw [hd] at h; exact h
  | cons c rest =>
    rw [hd] at h
    have hdata := congrArg String.data h
    simp only [String.data] at hdata
    exact absurd hdata (by simp [show ("" : String).data = [] from rfl])

lemma mem_buildDocs {item : String} {results : String → List String}
    {ts : Nat} {mv : String} {d : AltDoc} :
    d ∈ buildDocs item results ts mv ↔
      ∃ key ∈ AI_SITUATION_KEYS, ∃ text ∈ results key,
        d = ⟨item, key, text, ts, mv⟩ := by
  simp [buildDocs, List.mem_flatMap, List.mem_map, eq_comm]

lemma mem_existingSet {docs : List AltDoc} {sit v : String} :
    v ∈ existingSet docs sit ↔
      v ≠ "" ∧ ∃ e ∈ docs, e.situation = sit ∧
        jsToLower e.alternative_text = v := by
  simp only [existingSet, List.mem_filter, List.mem_map, beq_iff_eq,
    decide_eq_true_eq]
  constructor
  · rintro ⟨⟨e, ⟨he, hsit⟩, hv⟩, hne⟩
    exact ⟨hne, e, he, hsit, hv⟩
  · rintro ⟨hne, e, he, hsit, hv⟩
    exact ⟨⟨e, ⟨he, hsit⟩, hv⟩, hne⟩

lemma toInsertAux_mem :
    ∀ (docs : List AltDoc) (seen : String → List String) (d : AltDoc),
      d ∈ toInsertAux docs seen →
        d ∈ docs ∧ jsToLower d.alternative_text ≠ "" ∧
          jsToLower d.alternative_text ∉ seen d.situation := by
  intro docs
  induction docs with
  | nil => intro seen d h; simp [toInsertAux] at h
  | cons a rest ih =>
    intro seen d h
    rw [toInsertAux] at h
    by_cases h0 : jsToLower a.alternative_text = ""
    · rw [if_pos h0] at h
      obtain ⟨hmem, hne, hns⟩ := ih seen d h
      exact ⟨List.mem_cons_of_mem _ hmem, hne, hns⟩
    · rw [if_neg h0] at h
      by_cases h1 : jsToLower a.alternative_text ∈ seen a.situation
      · rw [if_pos h1] at h
        obtain ⟨hmem, hne, hns⟩ := ih seen d h
        exact ⟨List.mem_cons_of_mem _ hmem, hne, hns⟩
      · rw [if_neg h1] at h
        rcases List.mem_cons.mp h with rfl | h2
        · exact ⟨List.mem_cons_self _ _, h0, h1⟩
        · obtain ⟨hmem, hne, hns⟩ := ih _ d h2
          refine ⟨List.mem_cons_of_mem _ hmem, hne, fun hc => hns ?_⟩
          by_cases hs : d.situation = a.situation
          · rw [hs]; rw [hs] at hc
            simp only [if_pos rfl]
            exact List.mem_cons_of_mem _ hc
          · simpa [hs] using hc

lemma toInsertAux_pairwise :
    ∀ (docs : List AltDoc) (seen : String → List String),
      CIUnique (toInsertAux docs seen) := by
  intro docs
  induction docs with
  | nil => intro seen; simp [toInsertAux, CIUnique]
  | cons a rest ih =>
    intro seen
    rw [toInsertAux]
    by_cases h0 : jsToLower a.alternative_text = ""
    · rw [if_pos h0]; exact ih seen
    · rw [if_neg h0]
      by_cases h1 : jsToLower a.alternative_text ∈ seen a.situation
      · rw [if_pos h1]; exact ih seen
      · rw [if_neg h1]
        refine List.Pairwise.cons (fun e he hsit heq => ?_) (ih _)
        obtain ⟨-, -, hns⟩ := toInsertAux_mem _ _ e he
        rw [← hsit] at hns
        simp only [if_pos rfl] at hns
        exact hns (heq ▸ List.mem_cons_self _ _)

lemma aggregateAux_eq :
    ∀ (docs : List AltDoc) (acc : String → List String) (sit : String),
      sit ∈ AI_SITUATION_KEYS →
      aggregateAux docs acc sit =
        acc sit ++ dedupAux
          ((docs.filter (fun d => d.situation == sit)).map
            (fun d => d.alternative_text)) (acc sit) := by
  intro docs
  induction docs with
  | nil => intro acc sit _; simp [aggregateAux, dedupAux]
  | cons d rest ih =>
    intro acc sit hsit
    rw [aggregateAux]
    by_cases hk : d.situation ∈ AI_SITUATION_KEYS
    · rw [if_pos hk]
      by_cases hs : d.situation = sit
      · subst hs
        have hfilter :
            (d :: rest).filter (fun x => x.situation == d.situation) =
              d :: rest.filter (fun x => x.situation == d.situation) := by
          simp [List.filter_cons]
        by_cases hmem : d.alternative_text ∈ acc d.situation
        · rw [if_pos hmem, ih acc d.situation hsit, hfilter]
          simp [List.map_cons, dedupAux, hmem]
        · rw [if_neg hmem, ih _ d.situation hsit, hfilter]
          simp only [List.map_cons, dedupAux, if_pos rfl, if_neg hmem, if_true]
          rw [List.append_assoc]
          refine congrArg (acc d.situation ++ ·) ?_
          have hcongr := dedupAux_congr
            (List.map (fun x => x.alternative_text)
              (rest.filter (fun x => x.situation == d.situation)))
            (acc d.situation ++ [d.alternative_text])
            (d.alternative_text :: acc d.situation)
            (fun x => by simp [List.mem_append, List.mem_cons, or_comm])
          rw [hcongr]
          simp
      · have hfilter :
            (d :: rest).filter (fun x => x.situation == sit) =
              rest.filter (fun x => x.situation == sit) := by
          simp [List.filter_cons, hs]
        by_cases hmem : d.alternative_text ∈ acc d.situation
        · rw [if_pos hmem, ih acc sit hsit, hfilter]
        · rw [if_neg hmem, ih _ sit hsit, hfilter]
          have hcond : ¬(sit = d.situation) := fun hc => hs hc.symm
          simp [hcond]
    · rw [if_neg hk]
      have hs : d.situation ≠ sit := fun hc => hk (hc ▸ hsit)
      have hfilter :
          (d :: rest).filter (fun x => x.situation == sit) =
            rest.filter (fun x => x.situation == sit) := by
        simp [List.filter_cons, hs]
      rw [ih acc sit hsit, hfilter]

/-! ## Claim theorems -/

/-- C9: `normalizePartOfSpeech` accepts a single value or a list of values;
matching is case-insensitive (the output is fully determined by the
lowercased-and-trimmed items), unknown tags are dropped, duplicates are
collapsed and the result is truncated to its first remaining element, so
the output is always either empty or a single tag of the fixed nine-tag
enumeration. -/
theorem claim_C9_normalizePartOfSpeech (value : Option PosValue) :
    (normalizePartOfSpeech value = [] ∨
      ∃ t, t ∈ allowedPos ∧ normalizePartOfSpeech value = [t]) ∧
    (∀ l₁ l₂ : List String,
      l₁.map (fun i => jsTrim (jsToLower i)) =
        l₂.map (fun i => jsTrim (jsToLower i)) →
      normalizePartOfSpeech (some (.arr l₁)) =
        normalizePartOfSpeech (some (.arr l₂))) ∧
    (∀ s : String,
      normalizePartOfSpeech (some (.str s)) =
        if s = "" then [] else normalizePartOfSpeech (some (.arr [s]))) := by
  refine ⟨?_, ?_, ?_⟩
  · by_cases ht : posTruthy value = false
    · left; simp [normalizePartOfSpeech, ht]
    · rw [normalizePartOfSpeech, if_neg ht]
      cases hd : dedupKeepFirst (((posItems value).map
          (fun i => jsTrim (jsToLower i))).filter
          (fun i => i ∈ allowedPos)) with
      | nil => left; simp [hd]
      | cons a t =>
        right
        refine ⟨a, ?_, by simp [hd]⟩
        have ha := mem_dedupKeepFirst.mp (hd ▸ List.mem_cons_self a t)
        have := (List.mem_filter.mp ha).2
        simpa using this
  · intro l₁ l₂ h
    have hrw : ∀ l : List String,
        normalizePartOfSpeech (some (.arr l)) =
          (dedupKeepFirst ((l.map (fun i => jsTrim (jsToLower i))).filter
            (fun i => i ∈ allowedPos))).take 1 := fun l => rfl
    rw [hrw, hrw, h]
  · intro s
    by_cases hs : s = ""
    · subst hs; rfl
    · rw [if_neg hs]
      have h1 : normalizePartOfSpeech (some (.str s)) =
          (dedupKeepFirst (([s].map (fun i => jsTrim (jsToLower i))).filter
            (fun i => i ∈ allowedPos))).take 1 := by
        rw [normalizePartOfSpeech, if_neg (by simpa [posTruthy] using hs)]
        rfl
      rw [h1]; rfl

/-- C9 witness: case-insensitivity applied at `["NOUN"]` vs `["noun"]`. -/
theorem claim_C9_witness :
    (["NOUN"].map (fun i => jsTrim (jsToLower i)) =
      ["noun"].map (fun i => jsTrim (jsToLower i))) ∧
    normalizePartOfSpeech (some (.arr ["NOUN"])) =
      normalizePartOfSpeech (some (.arr ["noun"])) :=
  ⟨by decide,
   (claim_C9_normalizePartOfSpeech (some (.arr ["NOUN"]))).2.1 _ _ (by decide)⟩

/-- C5: `validateMorphology` returns an error result (never an exception)
exactly when the normalized part of speech contains `noun` and no valid
article is given; with a valid article it returns the normalized pair, and
`validateMorphology(["noun"], "")` is the article-required error. -/
theorem claim_C5_validateMorphology (pos : Option PosValue)
    (article : Option String) :
    ((∃ m, validateMorphology pos article = .error m) ↔
      ("noun" ∈ normalizePartOfSpeech pos ∧ normalizeArticle article = none)) ∧
    (∀ a, "noun" ∈ normalizePartOfSpeech pos →
      normalizeArticle article = some a →
      validateMorphology pos article =
        .ok (normalizePartOfSpeech pos) (some a)) ∧
    ("noun" ∉ normalizePartOfSpeech pos →
      validateMorphology pos article =
        .ok (normalizePartOfSpeech pos) none) ∧
    validateMorphology (some (.arr ["noun"])) (some "") =
      .error "Artikel ist für Nomen erforderlich." := by
  refine ⟨⟨?_, ?_⟩, ?_, ?_, by decide⟩
  · rintro ⟨m, hm⟩
    simp only [validateMorphology] at hm
    by_cases hn : "noun" ∈ normalizePartOfSpeech pos
    · rw [if_pos hn] at hm
      cases ha : normalizeArticle article with
      | none => exact ⟨hn, rfl⟩
      | some a => rw [ha] at hm; exact absurd hm (by simp)
    · rw [if_neg hn] at hm; exact absurd hm (by simp)
  · rintro ⟨hn, ha⟩
    refine ⟨"Artikel ist für Nomen erforderlich.", ?_⟩
    simp only [validateMorphology]
    rw [if_pos hn, ha]
  · intro a hn ha
    simp only [validateMorphology]
    rw [if_pos hn, ha]
  · intro hn
    simp only [validateMorphology]
    rw [if_neg hn]

/-- C5 witness: a noun with article `der` validates to the normalized
pair. -/
theorem claim_C5_witness :
    ("noun" ∈ normalizePartOfSpeech (some (.arr ["noun"])) ∧
      normalizeArticle (some "der") = some "der") ∧
    validateMorphology (some (.arr ["noun"])) (some "der") =
      .ok (normalizePartOfSpeech (some (.arr ["noun"]))) (some "der") :=
  ⟨⟨by decide, by decide⟩,
   (claim_C5_validateMorphology _ _).2.1 "der" (by decide) (by decide)⟩

/-- C4 counterexample: a create request with `article` set while the
normalized part of speech lacks `noun` does NOT fail — `validateMorphology`
succeeds and the article is silently dropped, so the entry is created with
no article instead of the claimed validation error. -/
theorem claim_C4_counterexample :
    validateMorphology (some (.arr ["verb"])) (some "die") =
      .ok ["verb"] none ∧
    postEntries (some "gehen") (some "sich fortbewegen") none none
        (some (.arr ["verb"])) (some "die") =
      .created ⟨"gehen", "sich fortbewegen", none, none, ["verb"], none⟩ := by
  decide

/-- C4 amended: when the normalized part of speech does not contain `noun`,
a set article is silently corrected by dropping it — `validateMorphology`
returns ok with `article` unset and, with term and definition present,
`POST /api/entries` creates the entry (no validation error); only the
noun-without-article direction of the invariant is rejected. -/
theorem claim_C4_article_dropped
    (term definition exampleField synonyms : Option String)
    (pos : Option PosValue) (article : Option String)
    (hpos : "noun" ∉ normalizePartOfSpeech pos)
    (hterm : strTruthy term = true) (hdef : strTruthy definition = true) :
    validateMorphology pos article = .ok (normalizePartOfSpeech pos) none ∧
    postEntries term definition exampleField synonyms pos article =
      .created ⟨term.getD "", definition.getD "", exampleField, synonyms,
        normalizePartOfSpeech pos, none⟩ := by
  have hv : validateMorphology pos article =
      .ok (normalizePartOfSpeech pos) none := by
    simp only [validateMorphology]
    rw [if_neg hpos]
  refine ⟨hv, ?_⟩
  simp [postEntries, hterm, hdef, hv]

/-- C4 witness: the amended behaviour applied to a verb with article
`die`. -/
theorem claim_C4_witness :
    ("noun" ∉ normalizePartOfSpeech (some (.arr ["verb"])) ∧
      strTruthy (some "gehen") = true ∧
      strTruthy (some "sich fortbewegen") = true) ∧
    postEntries (some "gehen") (some "sich fortbewegen") none none
        (some (.arr ["verb"])) (some "die") =
      .created ⟨(some "gehen").getD "", (some "sich fortbewegen").getD "",
        none, none, normalizePartOfSpeech (some (.arr ["verb"])), none⟩ :=
  ⟨⟨by decide, by decide, by decide⟩,
   (claim_C4_article_dropped _ _ _ _ _ _ (by decide) (by decide)
     (by decide)).2⟩

/-- C1 counterexample: with `partOfSpeech=["noun"]` and `article="die"`
already set in the input, an oracle response proposing `["verb"]`/`"der"`
OVERWRITES both — the result is `["verb"]`/`"der"`, not the claimed
retained `["noun"]`/`"die"`. -/
theorem claim_C1_counterexample :
    (aiCompleteResult
        ⟨some "Tisch", some "Möbelstück", none, none,
          some (.arr ["noun"]), some "die"⟩
        ⟨none, none, none, none,
          some (.arr ["verb"]), some "der"⟩).partOfSpeech = ["verb"] ∧
    (aiCompleteResult
        ⟨some "Tisch", some "Möbelstück", none, none,
          some (.arr ["noun"]), some "die"⟩
        ⟨none, none, none, none,
          some (.arr ["verb"]), some "der"⟩).article = "der" ∧
    ¬((aiCompleteResult
        ⟨some "Tisch", some "Möbelstück", none, none,
          some (.arr ["noun"]), some "die"⟩
        ⟨none, none, none, none,
          some (.arr ["verb"]), some "der"⟩).partOfSpeech = ["noun"] ∧
      (aiCompleteResult
        ⟨some "Tisch", some "Möbelstück", none, none,
          some (.arr ["noun"]), some "die"⟩
        ⟨none, none, none, none,
          some (.arr ["verb"]), some "der"⟩).article = "die") := by
  decide

/-- C1 amended: the `ai-complete` merge gives the ORACLE's part of speech
and article precedence whenever the oracle returns them (non-nullish); the
caller's input values are used only as a fallback when the oracle omits the
field — an already-set input value is overwritten by a present oracle
value. -/
theorem claim_C1_oracle_precedence (input parsed : CompleteFields) :
    (parsed.partOfSpeech = none →
      (aiCompleteResult input parsed).partOfSpeech =
        normalizePartOfSpeech input.partOfSpeech) ∧
    (∀ p, parsed.partOfSpeech = some p →
      (aiCompleteResult input parsed).partOfSpeech =
        normalizePartOfSpeech (some p)) ∧
    (parsed.article = none →
      (aiCompleteResult input parsed).article = input.article.getD "") ∧
    (∀ a, parsed.article = some a →
      (aiCompleteResult input parsed).article = a) := by
  refine ⟨fun h => ?_, fun p h => ?_, fun h => ?_, fun a h => ?_⟩ <;>
    simp [aiCompleteResult, nullishOr, h]

/-- C1 witness: the precedence rule applied to the counterexample's
inputs. -/
theorem claim_C1_witness :
    ((⟨none, none, none, none, some (.arr ["verb"]), some "der"⟩
        : CompleteFields).partOfSpeech = some (.arr ["verb"])) ∧
    (aiCompleteResult
        ⟨some "Tisch", some "Möbelstück", none, none,
          some (.arr ["noun"]), some "die"⟩
        ⟨none, none, none, none,
          some (.arr ["verb"]), some "der"⟩).partOfSpeech =
      normalizePartOfSpeech (some (.arr ["verb"])) :=
  ⟨rfl, (claim_C1_oracle_precedence _ _).2.1 _ rfl⟩

/-- C6 counterexample: the oracle returning the EMPTY string for `term`
replaces the caller's non-empty input `"laufen"` — `??` only falls back on
null/undefined, so an empty oracle value does overwrite non-empty caller
input. -/
theorem claim_C6_counterexample :
    (aiCompleteResult ⟨some "laufen", none, none, none, none, none⟩
        ⟨some "", none, none, none, none, none⟩).term = "" ∧
    (aiCompleteResult ⟨some "laufen", none, none, none, none, none⟩
        ⟨some "", none, none, none, none, none⟩).term ≠ "laufen" := by
  decide

/-- C6 amended: each content field of a successful completion equals the
oracle's returned value, falling back to the caller's input value ONLY when
the oracle omitted the field entirely (null/undefined); an oracle value
that is present — even the empty string — is used verbatim and does replace
the caller's input. -/
theorem claim_C6_content_merge (input parsed : CompleteFields) :
    ((parsed.term = none →
        (aiCompleteResult input parsed).term = input.term.getD "") ∧
      ∀ s, parsed.term = some s → (aiCompleteResult input parsed).term = s) ∧
    ((parsed.definition = none →
        (aiCompleteResult input parsed).definition =
          input.definition.getD "") ∧
      ∀ s, parsed.definition = some s →
        (aiCompleteResult input parsed).definition = s) ∧
    ((parsed.exampleField = none →
        (aiCompleteResult input parsed).exampleField =
          input.exampleField.getD "") ∧
      ∀ s, parsed.exampleField = some s →
        (aiCompleteResult input parsed).exampleField = s) ∧
    ((parsed.synonyms = none →
        (aiCompleteResult input parsed).synonyms = input.synonyms.getD "") ∧
      ∀ s, parsed.synonyms = some s →
        (aiCompleteResult input parsed).synonyms = s) := by
  refine ⟨⟨fun h => ?_, fun s h => ?_⟩, ⟨fun h => ?_, fun s h => ?_⟩,
    ⟨fun h => ?_, fun s h => ?_⟩, ⟨fun h => ?_, fun s h => ?_⟩⟩ <;>
    simp [aiCompleteResult, nullishOr, h]

/-- C6 witness: the fallback applied when the oracle omits `term`, at the
counterexample's caller input. -/
theorem claim_C6_witness :
    ((⟨none, some "Def", none, none, none, none⟩
        : CompleteFields).term = none) ∧
    (aiCompleteResult ⟨some "laufen", none, none, none, none, none⟩
        ⟨none, some "Def", none, none, none, none⟩).term =
      (some "laufen" : Option String).getD "" :=
  ⟨rfl, (claim_C6_content_merge _ _).1.1 rfl⟩

/-- C10: every field selected for review gets an entry in the spellcheck
response, and when the oracle omitted the field (or returned a non-object
for it) that entry is the neutral `ReviewFieldResult` with null corrected,
empty suggestions, empty part of speech, null article and null lemma —
never an absent field. -/
theorem claim_C10_review_completeness (userFields : Option (List String))
    (body : String → Option String) (userInput : Option (String → Bool))
    (parsed : String → Option OracleFieldVal) (field : String)
    (h : field ∈ computeFieldsToReview userFields body userInput) :
    (field, processField field (body field) (parsed field)) ∈
      spellcheckResults (computeFieldsToReview userFields body userInput)
        body parsed ∧
    (parsed field = none →
      processField field (body field) (parsed field) =
        neutralReviewResult) := by
  refine ⟨List.mem_map.mpr ⟨field, h, rfl⟩, fun hp => ?_⟩
  rw [hp, processField]

/-- C10 witness: a review of `term` where the oracle's response omits the
field yields the neutral result entry. -/
theorem claim_C10_witness :
    ("term" ∈ computeFieldsToReview none
      (fun f => if f = "term" then some "tisch" else none) none) ∧
    ("term", processField "term"
        ((fun f => if f = "term" then some "tisch" else none) "term")
        ((fun _ => none) "term")) ∈
      spellcheckResults
        (computeFieldsToReview none
          (fun f => if f = "term" then some "tisch" else none) none)
        (fun f => if f = "term" then some "tisch" else none)
        (fun _ => (none : Option OracleFieldVal)) :=
  ⟨by decide,
   (claim_C10_review_completeness none _ none _ "term" (by decide)).1⟩

/-- C8 counterexample: reviewing the term `"Tisch"` (already capitalized)
with a noun result appends NO capitalization suggestion and leaves
`corrected` null — the synthetic suggestion is only added when capitalizing
actually changes the base value, so the claim's unconditional "appends a
synthetic capitalization suggestion" fails here. -/
theorem claim_C8_counterexample :
    processField "term" (some "Tisch")
        (some ⟨none, some [], none, some (.arr ["noun"]), none,
          some "der"⟩) =
      ⟨none, [], none, ["noun"], some "der"⟩ ∧
    (processField "term" (some "Tisch")
        (some ⟨none, some [], none, some (.arr ["noun"]), none,
          some "der"⟩)).suggestions = [] := by
  decide

/-- C8 amended: for a review of the `term` field whose resolved part of
speech contains `noun`, WHEN capitalizing the base value (the oracle's
corrected value if present, else the original term) actually changes it,
the reviewer sets `corrected` to the capitalized form and appends the
synthetic suggestion `{from: originalTerm (or the base when the original is
empty), to: capitalizedForm, reason: "Großschreibung (Nomen)"}` after any
spelling suggestions; when the base is already capitalized, the result is
left unchanged. -/
theorem claim_C8_capitalization (original : Option String)
    (v : OracleFieldVal)
    (hnoun : "noun" ∈ (reviewBase v).partOfSpeech)
    (hchange :
      capitalizeFirst ((reviewBase v).corrected.getD (original.getD "")) ≠
        (reviewBase v).corrected.getD (original.getD "")) :
    processField "term" original (some v) =
      { reviewBase v with
        corrected := some (capitalizeFirst
          ((reviewBase v).corrected.getD (original.getD "")))
        suggestions := (reviewBase v).suggestions ++
          [⟨if original.getD "" ≠ "" then original.getD ""
              else (reviewBase v).corrected.getD (original.getD ""),
            capitalizeFirst
              ((reviewBase v).corrected.getD (original.getD "")),
            "Großschreibung (Nomen)"⟩] } := by
  have hne : capitalizeFirst
      ((reviewBase v).corrected.getD (original.getD "")) ≠ "" := by
    intro hc
    have hb := capitalizeFirst_eq_empty hc
    rw [hb] at hchange
    exact hchange (by decide)
  simp only [processField]
  rw [if_pos ⟨trivial, hnoun⟩, if_pos ⟨hne, hchange⟩]

/-- C8 witness: the claim's own scenario — reviewing the lowercase noun
`"tisch"` yields `corrected = "Tisch"` with the spelling suggestion and the
capitalization suggestion appearing together. -/
theorem claim_C8_witness :
    ("noun" ∈ (reviewBase ⟨some "tisch",
        some [⟨"tische", "tisch", "Rechtschreibung"⟩], none,
        some (.arr ["noun"]), none, some "der"⟩).partOfSpeech ∧
      capitalizeFirst ((reviewBase ⟨some "tisch",
          some [⟨"tische", "tisch", "Rechtschreibung"⟩], none,
          some (.arr ["noun"]), none, some "der"⟩).corrected.getD
            ((some "tisch" : Option String).getD "")) ≠
        (reviewBase ⟨some "tisch",
          some [⟨"tische", "tisch", "Rechtschreibung"⟩], none,
          some (.arr ["noun"]), none, some "der"⟩).corrected.getD
            ((some "tisch" : Option String).getD "")) ∧
    processField "term" (some "tisch")
        (some ⟨some "tisch", some [⟨"tische", "tisch", "Rechtschreibung"⟩],
          none, some (.arr ["noun"]), none, some "der"⟩) =
      ⟨some "Tisch",
        [⟨"tische", "tisch", "Rechtschreibung"⟩,
          ⟨"tisch", "Tisch", "Großschreibung (Nomen)"⟩],
        none, ["noun"], some "der"⟩ :=
  ⟨⟨by decide, by decide⟩, by
    have h := claim_C8_capitalization (some "tisch")
      ⟨some "tisch", some [⟨"tische", "tisch", "Rechtschreibung"⟩], none,
        some (.arr ["noun"]), none, some "der"⟩ (by decide) (by decide)
    rw [h]; decide⟩

lemma normAltGo_ok_iff (results : String → Option AltVal) :
    ∀ (keys : List String) (acc : String → List String),
      (∃ m, normAltGo results keys acc = .ok m) ↔
        ∀ k ∈ keys, cleanKey (results k) ≠ [] := by
  intro keys
  induction keys with
  | nil => intro acc; simp [normAltGo]
  | cons k rest ih =>
    intro acc
    by_cases hk : cleanKey (results k) = []
    · simp only [normAltGo, if_pos hk]
      constructor
      · rintro ⟨m, hm⟩; exact absurd hm (by simp)
      · intro h; exact absurd hk (h k (List.mem_cons_self _ _))
    · simp only [normAltGo, if_neg hk]
      rw [ih]
      constructor
      · intro h j hj
        rcases List.mem_cons.mp hj with rfl | hj2
        · exact hk
        · exact h j hj2
      · intro h j hj
        exact h j (List.mem_cons_of_mem _ hj)

lemma normAltGo_ok_spec (results : String → Option AltVal) :
    ∀ (keys : List String) (acc m : String → List String),
      normAltGo results keys acc = .ok m →
      ∀ k, (k ∈ keys → m k = cleanKey (results k)) ∧
        (k ∉ keys → m k = acc k) := by
  intro keys
  induction keys with
  | nil =>
    intro acc m h k
    simp only [normAltGo, Except.ok.injEq] at h
    exact ⟨fun hk => absurd hk (List.not_mem_nil k), fun _ => by rw [← h]⟩
  | cons k0 rest ih =>
    intro acc m h k
    by_cases hk0 : cleanKey (results k0) = []
    · rw [normAltGo, if_pos hk0] at h
      exact absurd h (by simp)
    · rw [normAltGo, if_neg hk0] at h
      have hspec := ih _ m h k
      constructor
      · intro hk
        rcases List.mem_cons.mp hk with rfl | hk2
        · by_cases hkrest : k ∈ rest
          · exact hspec.1 hkrest
          · rw [hspec.2 hkrest]; simp
        · exact hspec.1 hk2
      · intro hk
        have hkrest : k ∉ rest := fun hc => hk (List.mem_cons_of_mem _ hc)
        have hkne : k ≠ k0 := fun hc => hk (hc ▸ List.mem_cons_self _ _)
        rw [hspec.2 hkrest]
        simp [hkne]

lemma cleanKey_length_le (v : Option AltVal) : (cleanKey v).length ≤ 3 := by
  simp only [cleanKey]
  rw [List.length_take]
  exact min_le_left _ _

lemma cleanKey_mem {v : Option AltVal} {s : String} (h : s ∈ cleanKey v) :
    s ≠ "" ∧ ∃ raw, s = jsTrim raw := by
  simp only [cleanKey] at h
  have h1 := List.take_subset _ _ h
  have h2 := List.mem_filter.mp h1
  have hne : s ≠ "" := by simpa using h2.2
  obtain ⟨x, -, hs⟩ := List.mem_map.mp h2.1
  refine ⟨hne, ?_⟩
  cases x with
  | str r => exact ⟨r, hs.symm⟩
  | arr l => exact absurd hs.symm hne
  | other => exact absurd hs.symm hne

/-- C7: every oracle response to a generate call is normalized per situation
key to a list of trimmed non-empty strings capped at 3 entries, the call
succeeds exactly when every one of the five keys retains at least one entry
after coercion, and on success each key's list is exactly the coerced one —
if any key coerces to nothing, the whole call fails (the thrown error
becomes the handler's 502 `UpstreamError`) and no partial per-situation
result is returned as success. -/
theorem claim_C7_normalizeAlternatives (results : String → Option AltVal)
    (itemText : String) :
    ((∃ out, normalizeAlternativesResponse (.obj (some results)) itemText =
        .ok out) ↔
      ∀ k ∈ AI_SITUATION_KEYS, cleanKey (results k) ≠ []) ∧
    (∀ out, normalizeAlternativesResponse (.obj (some results)) itemText =
        .ok out →
      out.1 = itemText ∧
        ∀ k ∈ AI_SITUATION_KEYS, out.2 k = cleanKey (results k)) ∧
    (∀ k, (cleanKey (results k)).length ≤ 3 ∧
      ∀ s ∈ cleanKey (results k), s ≠ "" ∧ ∃ raw, s = jsTrim raw) := by
  refine ⟨?_, ?_, fun k => ⟨cleanKey_length_le _, fun s hs => cleanKey_mem hs⟩⟩
  · rw [← normAltGo_ok_iff results AI_SITUATION_KEYS (fun _ => [])]
    constructor
    · rintro ⟨out, hout⟩
      simp only [normalizeAlternativesResponse, Option.getD_some] at hout
      cases hgo : normAltGo results AI_SITUATION_KEYS (fun _ => []) with
      | error e => rw [hgo] at hout; exact absurd hout (by simp [Except.map])
      | ok m => exact ⟨m, rfl⟩
    · rintro ⟨m, hm⟩
      refine ⟨(itemText, m), ?_⟩
      simp only [normalizeAlternativesResponse, Option.getD_some, hm,
        Except.map]
  · intro out hout
    simp only [normalizeAlternativesResponse, Option.getD_some] at hout
    cases hgo : normAltGo results AI_SITUATION_KEYS (fun _ => []) with
    | error e => rw [hgo] at hout; exact absurd hout (by simp [Except.map])
    | ok m =>
      rw [hgo] at hout
      simp only [Except.map, Except.ok.injEq] at hout
      subst hout
      exact ⟨rfl, fun k hk =>
        (normAltGo_ok_spec results AI_SITUATION_KEYS _ m hgo k).1 hk⟩

/-- C7 witness: an oracle response giving `" Hallo "` for every situation
key coerces to a non-empty trimmed list everywhere, so the call
succeeds. -/
theorem claim_C7_witness :
    (∀ k ∈ AI_SITUATION_KEYS,
      cleanKey ((fun _ => some (.str " Hallo ")) k) ≠ []) ∧
    ∃ out, normalizeAlternativesResponse
        (.obj (some (fun _ => some (.str " Hallo ")))) "wort" = .ok out :=
  ⟨by decide,
   (claim_C7_normalizeAlternatives _ _).1.mpr (by decide)⟩

/-- C2: after a single generate call, (i) every inserted document's
lowercased text was not already stored for its situation (novelty against
the existing records), (ii) the inserted batch itself is case-insensitively
duplicate-free per situation (intra-batch dedup), (iii) case-insensitive
per-situation uniqueness of the item's stored records is preserved by the
call, and (iv) the stored count for any situation grows by at most the
number of distinct case-insensitive phrases of the oracle batch for that
situation. -/
theorem claim_C2_write_dedup (store : List AltDoc) (item : String)
    (results : String → List String) (ts : Nat) (mv : String) :
    (∀ d ∈ altToInsert store item results ts mv,
      ∀ e ∈ store.filter (fun x => x.item == item),
        e.situation = d.situation →
        jsToLower e.alternative_text ≠ jsToLower d.alternative_text) ∧
    CIUnique (altToInsert store item results ts mv) ∧
    (CIUnique (store.filter (fun x => x.item == item)) →
      CIUnique ((generateStore store item results ts mv).filter
        (fun x => x.item == item))) ∧
    (∀ sit,
      ((generateStore store item results ts mv).filter
          (fun d => d.item == item && d.situation == sit)).length ≤
        (store.filter
          (fun d => d.item == item && d.situation == sit)).length +
          (dedupKeepFirst ((results sit).map jsToLower)).length) := by
  have hmemIns : ∀ d ∈ altToInsert store item results ts mv,
      d ∈ buildDocs item results ts mv ∧
        jsToLower d.alternative_text ≠ "" ∧
        jsToLower d.alternative_text ∉
          existingSet (store.filter (fun x => x.item == item))
            d.situation :=
    fun d hd => toInsertAux_mem _ _ d hd
  have hnovel : ∀ d ∈ altToInsert store item results ts mv,
      ∀ e ∈ store.filter (fun x => x.item == item),
        e.situation = d.situation →
        jsToLower e.alternative_text ≠ jsToLower d.alternative_text := by
    intro d hd e he hsit heq
    obtain ⟨-, hne, hns⟩ := hmemIns d hd
    exact hns (mem_existingSet.mpr ⟨hne, e, he, hsit, heq⟩)
  have hitem : ∀ d ∈ altToInsert store item results ts mv, d.item = item := by
    intro d hd
    obtain ⟨hb, -, -⟩ := hmemIns d hd
    obtain ⟨key, -, text, -, rfl⟩ := mem_buildDocs.mp hb
    rfl
  have hinsFilter : (altToInsert store item results ts mv).filter
      (fun x => x.item == item) = altToInsert store item results ts mv :=
    List.filter_eq_self.mpr (fun d hd => by simp [hitem d hd])
  refine ⟨hnovel, toInsertAux_pairwise _ _, ?_, ?_⟩
  · intro hstore
    rw [CIUnique, generateStore, List.filter_append, hinsFilter,
      List.pairwise_append]
    refine ⟨hstore, toInsertAux_pairwise _ _, ?_⟩
    intro a ha b hb hsit
    exact hnovel b hb a ha hsit
  · intro sit
    rw [generateStore, List.filter_append, List.length_append]
    refine Nat.add_le_add_left ?_ _
    have hpw2 : ((altToInsert store item results ts mv).filter
        (fun d => d.item == item && d.situation == sit)).Pairwise
        (fun a b =>
          jsToLower a.alternative_text ≠ jsToLower b.alternative_text) := by
      refine List.Pairwise.imp_of_mem ?_
        ((toInsertAux_pairwise (buildDocs item results ts mv)
          (existingSet (store.filter (fun x => x.item == item)))).sublist
          (List.filter_sublist _))
      intro a b ha hb hr
      have hsa : a.situation = sit := by
        have := (List.mem_filter.mp ha).2
        simp only [Bool.and_eq_true, beq_iff_eq] at this
        exact this.2
      have hsb : b.situation = sit := by
        have := (List.mem_filter.mp hb).2
        simp only [Bool.and_eq_true, beq_iff_eq] at this
        exact this.2
      exact hr (hsa.trans hsb.symm)
    have hnodup : (((altToInsert store item results ts mv).filter
        (fun d => d.item == item && d.situation == sit)).map
        (fun d => jsToLower d.alternative_text)).Nodup := by
      have hmap := List.Pairwise.map
        (R := fun (a b : AltDoc) =>
          jsToLower a.alternative_text ≠ jsToLower b.alternative_text)
        (S := fun (x y : String) => x ≠ y)
        (fun d => jsToLower d.alternative_text) (fun _ _ h => h) hpw2
      exact hmap
    have hsub : ((altToInsert store item results ts mv).filter
        (fun d => d.item == item && d.situation == sit)).map
        (fun d => jsToLower d.alternative_text) ⊆
        dedupKeepFirst ((results sit).map jsToLower) := by
      intro x hx
      obtain ⟨d, hd, rfl⟩ := List.mem_map.mp hx
      have hd2 := List.mem_of_mem_filter hd
      have hsit : d.situation = sit := by
        have := (List.mem_filter.mp hd).2
        simp only [Bool.and_eq_true, beq_iff_eq] at this
        exact this.2
      obtain ⟨hbld, -, -⟩ := toInsertAux_mem _ _ d hd2
      obtain ⟨key, -, text, htext, rfl⟩ := mem_buildDocs.mp hbld
      rw [mem_dedupKeepFirst]
      exact List.mem_map.mpr ⟨text, hsit ▸ htext, rfl⟩
    have hlen := (hnodup.subperm hsub).length_le
    simpa using hlen

/-- C2 witness: a second generate call whose oracle output repeats a stored
phrase with different casing preserves case-insensitive per-situation
uniqueness of the stored records. -/
theorem claim_C2_witness :
    CIUnique (([⟨"wort", "arbeit", "Hallo", 0, "m"⟩] : List AltDoc).filter
      (fun x => x.item == "wort")) ∧
    CIUnique ((generateStore [⟨"wort", "arbeit", "Hallo", 0, "m"⟩] "wort"
        (fun _ => ["hallo", "Servus"]) 1 "m").filter
      (fun x => x.item == "wort")) :=
  ⟨by unfold CIUnique; decide,
   (claim_C2_write_dedup [⟨"wort", "arbeit", "Hallo", 0, "m"⟩] "wort"
     (fun _ => ["hallo", "Servus"]) 1 "m").2.2.1
     (by unfold CIUnique; decide)⟩

/-- C3 counterexample: with two stored records `"Hallo"` and `"hallo"` for
the same (item, situation), `aggregateAlternatives` returns BOTH — its
dedup uses exact string comparison (`includes`), so the returned list is not
de-duplicated case-insensitively as claimed. -/
theorem claim_C3_counterexample :
    (aggregateAlternatives
        [⟨"wort", "arbeit", "Hallo", 0, "m"⟩,
          ⟨"wort", "arbeit", "hallo", 1, "m"⟩]
        "wort").results "arbeit" = ["Hallo", "hallo"] ∧
    ¬(((aggregateAlternatives
        [⟨"wort", "arbeit", "Hallo", 0, "m"⟩,
          ⟨"wort", "arbeit", "hallo", 1, "m"⟩]
        "wort").results "arbeit").map jsToLower).Nodup := by
  decide

/-- C3 amended: for every situation key, `aggregate(item)` returns exactly
the historically stored texts of that (item, situation) in original
insertion order, de-duplicated under EXACT (case-sensitive) string
comparison — so the returned list has no exact duplicates and keeps first
occurrences — and `generate` always ends by returning this full historical
aggregate over the post-insertion store (every previously stored text for
the situation appears in the generate response), not just the current
oracle batch. -/
theorem claim_C3_aggregate (store : List AltDoc) (item : String)
    (results : String → List String) (ts : Nat) (mv : String) (sit : String)
    (hsit : sit ∈ AI_SITUATION_KEYS) (htrim : jsTrim item = item)
    (hne : item ≠ "") :
    (aggregateAlternatives store item).results sit =
      dedupKeepFirst
        (((store.filter (fun d => d.item == item)).filter
          (fun d => d.situation == sit)).map (fun d => d.alternative_text)) ∧
    ((aggregateAlternatives store item).results sit).Nodup ∧
    generateResponse store item results ts mv =
      aggregateAlternatives (generateStore store item results ts mv) item ∧
    (∀ d ∈ store, d.item = item → d.situation = sit →
      d.alternative_text ∈
        (generateResponse store item results ts mv).results sit) := by
  have key : ∀ st : List AltDoc,
      (aggregateAlternatives st item).results sit =
        dedupKeepFirst
          (((st.filter (fun d => d.item == item)).filter
            (fun d => d.situation == sit)).map
            (fun d => d.alternative_text)) := by
    intro st
    rw [aggregateAlternatives]
    simp only [htrim, if_neg hne]
    rw [aggregateAux_eq (st.filter (fun d => d.item == item))
      (fun _ => []) sit hsit]
    simp [dedupKeepFirst]
  refine ⟨key store, ?_, rfl, ?_⟩
  · rw [key store]; exact nodup_dedupKeepFirst
  · intro d hd hitem hsit2
    show d.alternative_text ∈
      (aggregateAlternatives (generateStore store item results ts mv)
        item).results sit
    rw [key (generateStore store item results ts mv), mem_dedupKeepFirst]
    refine List.mem_map.mpr ⟨d, ?_, rfl⟩
    refine List.mem_filter.mpr ⟨List.mem_filter.mpr ⟨?_, by simp [hitem]⟩,
      by simp [hsit2]⟩
    exact List.mem_append_left _ hd

/-- C3 witness: the exact-dedup aggregate characterization applied to a
one-record store. -/
theorem claim_C3_witness :
    ("arbeit" ∈ AI_SITUATION_KEYS ∧ jsTrim "wort" = "wort" ∧
      ("wort" : String) ≠ "") ∧
    (aggregateAlternatives [⟨"wort", "arbeit", "Hallo", 0, "m"⟩]
        "wort").results "arbeit" =
      dedupKeepFirst
        (((([⟨"wort", "arbeit", "Hallo", 0, "m"⟩] : List AltDoc).filter
          (fun d => d.item == "wort")).filter
          (fun d => d.situation == "arbeit")).map
          (fun d => d.alternative_text)) :=
  ⟨⟨by decide, by decide, by decide⟩,
   (claim_C3_aggregate [⟨"wort", "arbeit", "Hallo", 0, "m"⟩] "wort"
     (fun _ => ["x"]) 1 "m" "arbeit" (by decide) (by decide) (by decide)).1⟩
